import Mathlib

/-!
Verification development for the moderation-docx-extract repository.

The Rust sources under src/ are shallowly embedded below:
  - string primitives used by the matching code (trim, lowercase,
    whitespace collapsing, colon stripping) as functions on List Char,
  - the Block model of src/lib.rs (Block::Paragraph / Block::Table),
  - the Term model and deep_search_term of src/info_extract.rs,
  - find_term_table_text / find_term_table_text_case_insensitive of
    src/lib.rs, including the panic of the unreachable arm,
  - read_head / read_body_info of src/info_extract.rs, with panics
    (expect, slice out of range) made explicit in the result types,
  - into_record / header_record of src/info_extract.rs,
  - read_header_info of src/lib.rs over a token-level model of the
    quick-xml event stream,
  - collect_table_paragraphs of src/lib.rs over a node model of
    docx tables.

Rust functions that can panic are embedded with an explicit panic
outcome in their result type; machine behavior is otherwise translated
one construct at a time from the source.
-/

namespace DocxExtract

/-! ## String primitives (embedding of the Rust string operations) -/

/-- Embedding of Rust char::is_whitespace restricted to the ASCII
whitespace actually present in the documents. -/
def wsChar (c : Char) : Bool := c.isWhitespace

/-- Embedding of str::to_lowercase (character-wise, ASCII-faithful). -/
def lowerChars (l : List Char) : List Char := l.map Char.toLower

/-- Embedding of str::to_uppercase (character-wise, ASCII-faithful). -/
def upperChars (l : List Char) : List Char := l.map Char.toUpper

/-- Embedding of s.split_whitespace().collect::<String>() : removing every
whitespace character. -/
def noWsChars (l : List Char) : List Char := l.filter (fun c => !(wsChar c))

/-- Embedding of s.split(':').collect::<String>() : removing every colon. -/
def noColonChars (l : List Char) : List Char := l.filter (fun c => !(c == ':'))

/-- Embedding of str::trim: drop whitespace from both ends. -/
def trimChars (l : List Char) : List Char :=
  ((l.dropWhile wsChar).reverse.dropWhile wsChar).reverse

/-- String-level trim. -/
def strTrim (s : String) : String := ⟨trimChars s.toList⟩

/-- String-level lowercase. -/
def strLower (s : String) : String := ⟨lowerChars s.toList⟩

/-! ## Block model (src/lib.rs) -/

/-- Embedding of enum Block: one paragraph or one (flattened) table in
document order.  A table holds the non-empty paragraph texts of its
cells in row-major order, as produced by extract_doc_blocks. -/
inductive Block where
  | paragraph (text : String)
  | table (cells : List String)
deriving DecidableEq, Repr

/-- Embedding of Block::is_paragraph. -/
def Block.isPar : Block → Bool
  | .paragraph _ => true
  | .table _ => false

/-! ## Term model (src/info_extract.rs) -/

/-- Embedding of enum Term: a label descriptor with one or more
literal spellings. -/
inductive Term where
  | single (s : String)
  | double (main alt : String)
  | many (main : String) (other : List String)
deriving DecidableEq, Repr

/-- Embedding of Term::into_main. -/
def Term.intoMain : Term → String
  | .single s => s
  | .double m _ => m
  | .many m _ => m

/-- The alias list of a term: main spelling followed by the alternates. -/
def Term.aliases : Term → List String
  | .single s => [s]
  | .double m a => [m, a]
  | .many m o => m :: o

/-- Embedding of impl PartialEq of str for Term: the trimmed text equals
some alias of the term. -/
def Term.eqStr : Term → String → Bool
  | .single s, t => s == t
  | .double m a, t => m == t || a == t
  | .many m o, t => m == t || o.contains t

/-- Embedding of deep_search_term: the trimmed lowercased text equals the
lowercased term directly, or with all whitespace removed, or with all
colons removed. -/
def deepSearchTerm (searchSpace term : String) : Bool :=
  let lowerTerm := lowerChars term.toList
  let trimmedLowerText := lowerChars (trimChars searchSpace.toList)
  trimmedLowerText == lowerTerm
    || noWsChars trimmedLowerText == lowerTerm
    || noColonChars trimmedLowerText == lowerTerm

/-- Embedding of Term::deep_matches. -/
def Term.deepMatches : Term → String → Bool
  | .single s, sp => deepSearchTerm sp s
  | .double m a, sp => deepSearchTerm sp m || deepSearchTerm sp a
  | .many m o, sp => deepSearchTerm sp m || o.any (fun t => deepSearchTerm sp t)

/-- Embedding of EXTRACT_SEARCH_TERMS_IN_ORDER. -/
def extractSearchTermsInOrder : List Term :=
  [ .many "IDENTIFICATION OF IRREGULARITIES"
      [ "IDENTIFICATION OF NON-COMPLIANCE / IRREGULARITIES",
        "SECTION F:  IDENTIFICATION OF NON-COMPLIANCE / IRREGULARITIES" ],
    .single "AREAS OF GOOD PRACTICE / INNOVATION",
    .single "AREAS THAT REQUIRE INTERVENTION AND SUPPORT",
    .double "RECOMMENDATIONS" "RECOMMENDATIONS FOR IMPROVEMENT",
    .single "CONCLUSION" ]

/-- Embedding of TERM_LEN. -/
def termLen : Nat := 5

/-- Embedding of HEADER_WORDS. -/
def headerWords : List String := ["PROVINCE", "DISTRICT", "SCHOOL", "SUBJECT"]

/-- Embedding of Iterator::position, used throughout the source. -/
def position (p : α → Bool) : List α → Option Nat
  | [] => none
  | a :: l => if p a then some 0 else (position p l).map (· + 1)

/-! ## Section lookup (src/lib.rs, DocBlocks) -/

/-- The predicate of the exact pass of find_term_table_text: a paragraph
block whose trimmed text equals the term (alias-set equality, through
Term's PartialEq of str impl). -/
def paraExactMatch (term : Term) : Block → Bool
  | .paragraph p => term.eqStr (strTrim p)
  | .table _ => false

/-- The predicate of find_term_table_text_case_insensitive: a paragraph
block whose trimmed lowercased text equals a lowercased alias. -/
def paraCiMatch (term : Term) : Block → Bool
  | .paragraph p =>
      term.aliases.any (fun a => lowerChars (trimChars p.toList) == lowerChars a.toList)
  | .table _ => false

/-- Result of find_term_table_text.  The Rust function returns
Option of a Block reference but reaches an unreachable panic in the
case-insensitive fallback when no paragraph matches at all; the panic
is made an explicit outcome. -/
inductive Lookup where
  | block (b : Block)
  | nothingAfter
  | panicked
deriving DecidableEq, Repr

/-- Embedding of DocBlocks::find_term_table_text together with its
fallback find_term_table_text_case_insensitive: find the first
paragraph exactly matching the term and return the next block; failing
that, retry case-insensitively; if that also finds nothing, the
unreachable arm panics. -/
def findTermTableText (blocks : List Block) (term : Term) : Lookup :=
  match position (paraExactMatch term) blocks with
  | some i =>
      match blocks[i + 1]? with
      | some b => .block b
      | none => .nothingAfter
  | none =>
      match position (paraCiMatch term) blocks with
      | some i =>
          match blocks[i + 1]? with
          | some b => .block b
          | none => .nothingAfter
      | none => .panicked

/-! ## Section extraction (src/info_extract.rs, read_body_info) -/

/-- A cell matches some term of the search list other than the current
one (the inner filter of the boundary scan in read_body_info). -/
def cellMatchesOther (term : Term) (cell : String) : Bool :=
  extractSearchTermsInOrder.any (fun o => !(o == term) && o.deepMatches cell)

/-- The boundary scan of read_body_info: iterate the enumerated cells
from the match position on and remember the index of the last cell
matched by some other term (the loop overwrites its result on every
hit, so the final value is the last hit, not the first). -/
def lastOtherPos (t : List String) (pos : Nat) (term : Term) : Option Nat :=
  (((t.enum).drop pos).filter (fun p => cellMatchesOther term p.2)).getLast?.map (·.1)

/-- The value read_body_info records for one term, none when the code
panics while producing it (unreachable in the lookup, or an
out-of-range slice t[pos+1..next] when next is below pos+1). -/
def termValue (blocks : List Block) (term : Term) : Option String :=
  match findTermTableText blocks term with
  | .panicked => none
  | .nothingAfter => some ""
  | .block (.paragraph p) => some p
  | .block (.table t) =>
      match position (fun x => term.deepMatches x) t with
      | none => some (String.join t)
      | some pos =>
          match lastOtherPos t pos term with
          | some nextTermPos =>
              if pos + 1 ≤ nextTermPos then
                some (String.intercalate "\n" ((t.drop (pos + 1)).take (nextTermPos - (pos + 1))))
              else
                none
          | none => some (String.intercalate "\n" (t.drop pos))

/-- Result of read_body_info with the panic made explicit. -/
inductive BodyResult where
  | ok (m : List (String × String))
  | panicked
deriving DecidableEq, Repr

/-- The per-term loop of read_body_info; the map is kept as an
association list in insertion order (the five main strings are
distinct, so the HashMap content is exactly this list). -/
def readBodyGo (blocks : List Block) : List Term → Option (List (String × String))
  | [] => some []
  | tm :: rest =>
      match termValue blocks tm with
      | none => none
      | some v => (readBodyGo blocks rest).map ((tm.intoMain, v) :: ·)

/-- Embedding of read_body_info. -/
def readBodyInfo (blocks : List Block) : BodyResult :=
  match readBodyGo blocks extractSearchTermsInOrder with
  | none => .panicked
  | some m => .ok m

/-! ## Header extraction (src/info_extract.rs, read_head) -/

/-- The in-place normalization of read_head applied to one cell:
remove whitespace, uppercase, remove colons. -/
def headerFix (x : String) : String :=
  ⟨noColonChars (upperChars (noWsChars x.toList))⟩

/-- Exact containment of a header word in a cell (trimmed equality),
the exact pass of the table search. -/
def cellHeaderExact (cell : String) : Bool :=
  headerWords.any (fun w => strTrim cell == w)

/-- Normalized containment of a header word in a cell: the lowercased,
whitespace-collapsed, colon-stripped forms coincide. -/
def specNormalize (s : String) : List Char :=
  noColonChars (noWsChars (lowerChars s.toList))

/-- Normalized-match pass of the table search. -/
def cellHeaderNorm (cell : String) : Bool :=
  headerWords.any (fun w => specNormalize cell == specNormalize w)

/-- The tables of a block sequence in document order. -/
def docTables (blocks : List Block) : List (List String) :=
  blocks.filterMap (fun b => match b with
    | .table t => some t
    | .paragraph _ => none)

/-- Modelled from the spec: DocBlocks::find_table_containing_one_of is
not present in the repository sources (only its caller read_head is);
section 4.3 step 1 of the spec describes it as scanning for the first
Table block whose cells contain text matching a header term, with an
exact-match pass first and a normalized-match pass over all tables
when the exact pass finds nothing. -/
def findTableContainingOneOf (blocks : List Block) : Option (List String) :=
  match (docTables blocks).find? (fun t => t.any cellHeaderExact) with
  | some t => some t
  | none => (docTables blocks).find? (fun t => t.any cellHeaderNorm)

/-- The two normalization passes of read_head over the matched table:
first rewrite DISTRICT/REGION cells to DISTRICT, then rewrite every
cell whose fixed form is a header word to that fixed form. -/
def normalizeHeaderCells (t : List String) : List String :=
  (t.map (fun x => if x == "DISTRICT/REGION" then "DISTRICT" else x)).map
    (fun x => if headerWords.contains (headerFix x) then headerFix x else x)

/-- Result of read_head: the bail when no table contains a header term,
the expect panic when a found label has no next cell, or the final
label-to-value map (association list in HEADER_WORDS order; the four
keys are distinct, so the HashMap content is exactly this list). -/
inductive HeadResult where
  | headerNotFound
  | panicked
  | ok (m : List (String × String))
deriving DecidableEq, Repr

/-- The per-word loop of read_head: find the word's position, take the
next cell as its value (panic if there is none) and blank that cell in
place (mem::take), or record the empty string when the word is absent. -/
def readHeadLoop : List String → List String → List (String × String) →
    Option (List (String × String))
  | [], _, acc => some acc
  | w :: ws, t, acc =>
      match position (fun x => x == w) t with
      | none => readHeadLoop ws t (acc ++ [(w, "")])
      | some pos =>
          match t[pos + 1]? with
          | none => none
          | some v => readHeadLoop ws (t.set (pos + 1) "") (acc ++ [(w, v)])

/-- Embedding of read_head.  The final fill loop of the source (run
when fewer than four entries were inserted) is unreachable because the
word loop inserts one entry per header word, and is omitted. -/
def readHead (blocks : List Block) : HeadResult :=
  match findTableContainingOneOf blocks with
  | none => .headerNotFound
  | some t =>
      match readHeadLoop headerWords (normalizeHeaderCells t) [] with
      | none => .panicked
      | some m => .ok m

/-! ## Record assembly (src/info_extract.rs, ExtractedInfo) -/

/-- Embedding of ExtractedInfo::header_record: the four header labels,
the first TERM_LEN search-term mains, then File. -/
def headerRecord : List String :=
  ["Province", "District", "School", "Subject"]
    ++ (extractSearchTermsInOrder.take termLen).map Term.intoMain
    ++ ["File"]

/-- Embedding of ExtractedInfo::into_record.  The source extends the
row with header.into_values() and body.into_values(); a HashMap's
iteration order is unspecified, so the row is a function of the value
sequences in whatever order the two maps happen to iterate, taken here
as explicit arguments. -/
def intoRecord (headerValuesIter bodyValuesIter : List String) (file : String) :
    List String :=
  headerValuesIter ++ bodyValuesIter ++ [file]

/-! ## Batch driver (src/bin/doc-extract.rs, main / extract_one) -/

/-- Outcome of extract_one for one document: a record, a document-scoped
error (logged and skipped by main), or a panic that aborts the process. -/
inductive DocOutcome where
  | ok (header body : List (String × String))
  | err
  | panicked
deriving DecidableEq, Repr

/-- Embedding of extract_one: read_head's error propagates as a
document error; a panic in read_head or read_body_info aborts. -/
def extractOne (blocks : List Block) : DocOutcome :=
  match readHead blocks with
  | .headerNotFound => .err
  | .panicked => .panicked
  | .ok h =>
      match readBodyInfo blocks with
      | .panicked => .panicked
      | .ok b => .ok h b

/-- Embedding of the per-file loop of main: a document error is logged
and the loop continues with the next document; a panic aborts the whole
run (modelled as none). -/
def processAll : List (List Block) → Option (List (List (String × String) × List (String × String)))
  | [] => some []
  | d :: ds =>
      match extractOne d with
      | .panicked => none
      | .err => processAll ds
      | .ok h b => (processAll ds).map ((h, b) :: ·)

/-! ## Positional header scan (src/lib.rs, read_header_info)

The quick-xml event stream is modelled at the granularity the scan
observes it: a row-start token for each w:tr element and a cell token
carrying the cell's text for each w:tc element.  get_element skips
tokens until it hits the requested one and fails at end of input. -/

/-- One token of the scanned stream. -/
inductive Tok where
  | tr
  | tc (text : String)
deriving DecidableEq, Repr

/-- Embedding of get_element for w:tr: consume up to and including the
next row-start token. -/
def getTr : List Tok → Option (List Tok)
  | [] => none
  | .tr :: rest => some rest
  | .tc _ :: rest => getTr rest

/-- Embedding of read_cell_text: consume up to and including the next
cell token and return its text. -/
def getTc : List Tok → Option (String × List Tok)
  | [] => none
  | .tc s :: rest => some (s, rest)
  | .tr :: rest => getTc rest

/-- The builder state of HeaderInfoBuilder: each field is unset or set. -/
structure HB where
  province : Option String := none
  district : Option String := none
  school : Option (Option String) := none
  subject : Option (Option String) := none
deriving DecidableEq, Repr

/-- The label key of a cell text: whitespace removed, then lowercased,
as in the match scrutinee of read_header_info. -/
def colvalKey (s : String) : String := ⟨lowerChars (noWsChars s.toList)⟩

/-- Reading of the value cell after a matched label (read_cell_text
with the question-mark operator: its failure is a document-scoped
error, modelled as none), storing the value through f. -/
def readValueInto (s : List Tok) (f : String → HB) : Option (HB × List Tok) :=
  match getTc s with
  | none => none
  | some (v, s2) => some (f v, s2)

/-- Processing of one column value in read_header_info: on a label
match the next cell is read and stored in the builder. -/
def handleColval (colval : String) (s : List Tok) (hb : HB) :
    Option (HB × List Tok) :=
  if colvalKey colval == "province" || colvalKey colval == "province:" then
    readValueInto s (fun v => { hb with province := some v })
  else if colvalKey colval == "district" || colvalKey colval == "district/region"
      || colvalKey colval == "district:" then
    readValueInto s (fun v => { hb with district := some v })
  else if colvalKey colval == "school" || colvalKey colval == "school:" then
    readValueInto s (fun v => { hb with school := some (some v) })
  else if colvalKey colval == "subject" || colvalKey colval == "subject:" then
    readValueInto s (fun v => { hb with subject := some (some v) })
  else
    some (hb, s)

/-- Outcome of read_header_info: the built HeaderInfo, the bail of the
protection counter (an anyhow error), a panic (the unwrap on
read_row_first_cell_text), or exhausted fuel (an artifact of the
embedding, proved unreachable below). -/
inductive HIResult where
  | ok (province district : String) (school subject : Option String)
  | error
  | panicked
  | fuelOut
deriving DecidableEq, Repr

/-- Outcome of one iteration body of read_header_info, before the
counter checks. -/
inductive StepOut where
  | panicked
  | error
  | next (hb : HB) (rest : List Tok)
deriving DecidableEq, Repr

/-- One iteration body of read_header_info: read the first cell text of
the next row (unwrap: failure panics), then process it and one further
cell as the two header columns (failures there are document-scoped
errors). -/
def hiStep (stream : List Tok) (hb : HB) : StepOut :=
  match getTr stream with
  | none => .panicked
  | some s1 =>
      match getTc s1 with
      | none => .panicked
      | some (t, s2) =>
          match handleColval t s2 hb with
          | none => .error
          | some (hb1, s3) =>
              match getTc s3 with
              | none => .error
              | some (cv, s4) =>
                  match handleColval cv s4 hb1 with
                  | none => .error
                  | some (hb2, s5) => .next hb2 s5

/-- The loop of read_header_info: run the iteration body, bail when the
protection counter passed 14 without province and district, default
subject after 13 rounds, and return as soon as the builder is complete. -/
def hiLoop : Nat → List Tok → Nat → HB → HIResult
  | 0, _, _, _ => .fuelOut
  | fuel + 1, stream, counter, hb =>
      match hiStep stream hb with
      | .panicked => .panicked
      | .error => .error
      | .next hb2 s5 =>
          if decide (14 < counter + 1)
              && !(hb2.province.isSome && hb2.district.isSome) then
            .error
          else
            let hb3 :=
              if hb2.province.isSome && hb2.district.isSome
                  && hb2.subject.isNone && decide (13 < counter + 1) then
                { hb2 with subject := some none }
              else hb2
            match hb3.province, hb3.district, hb3.school, hb3.subject with
            | some p, some d, some sc, some su => .ok p d sc su
            | _, _, _, _ => hiLoop fuel s5 (counter + 1) hb3

/-- Embedding of read_header_info; each iteration consumes at least one
token, so length-plus-one fuel is enough (proved below). -/
def readHeaderInfo (stream : List Tok) : HIResult :=
  hiLoop (stream.length + 1) stream 0 {}

/-! ## Table flattening (src/lib.rs, collect_table_paragraphs)

The docx content tree of one table, as the block builder walks it:
rows of cells, each cell holding paragraphs or nested tables.  A
paragraph is represented by its extracted run text. -/

mutual
inductive DocxTable where
  | mk (rows : List DocxRow)
inductive DocxRow where
  | mk (cells : List DocxCell)
inductive DocxCell where
  | mk (children : List DocxCellContent)
inductive DocxCellContent where
  | paragraph (text : String)
  | table (t : DocxTable)
end

/-- The rows of a table node. -/
def DocxTable.rows : DocxTable → List DocxRow
  | .mk r => r

/-- The cells of a row node. -/
def DocxRow.cells : DocxRow → List DocxCell
  | .mk c => c

/-- The children of a cell node. -/
def DocxCell.children : DocxCell → List DocxCellContent
  | .mk ch => ch

mutual
/-- Embedding of collect_table_paragraphs: the paragraph texts of a
table in row-major order, with nested tables contributing their own
paragraphs in place (the accumulator of the source is made the result). -/
def collectTable : DocxTable → List String
  | .mk rows => collectRows rows
def collectRows : List DocxRow → List String
  | [] => []
  | r :: rs => collectRow r ++ collectRows rs
def collectRow : DocxRow → List String
  | .mk cells => collectCells cells
def collectCells : List DocxCell → List String
  | [] => []
  | c :: cs => collectCell c ++ collectCells cs
def collectCell : DocxCell → List String
  | .mk children => collectContents children
def collectContents : List DocxCellContent → List String
  | [] => []
  | x :: xs => collectContent x ++ collectContents xs
def collectContent : DocxCellContent → List String
  | .paragraph t => [t]
  | .table t => collectTable t
end

/-- The cell list of the Table block extract_doc_blocks builds from a
table node: the collected paragraph texts whose trimmed form is
non-empty. -/
def tableText (t : DocxTable) : List String :=
  (collectTable t).filter (fun s => !(trimChars s.toList).isEmpty)

/-- One table node is directly nested in another: it occurs as a cell
child somewhere in the outer table. -/
def directlyNested (inner outer : DocxTable) : Prop :=
  ∃ r ∈ outer.rows, ∃ c ∈ r.cells, DocxCellContent.table inner ∈ c.children

/-- Transitive nesting of table nodes. -/
def nestedIn : DocxTable → DocxTable → Prop :=
  Relation.TransGen directlyNested

/-! ## Derived views and spec-comparison definitions -/

/-- The section value read_body_info reports for a term, read off the
returned map; none when the call panics. -/
def bodyLookup (blocks : List Block) (term : Term) : Option String :=
  match readBodyInfo blocks with
  | .ok m => m.lookup term.intoMain
  | .panicked => none

/-- The value the source computes from the block after a matched
paragraph when the term does not deep-match the table (the join with
empty separator), or the paragraph text itself. -/
def nextBlockValueSpec (term : Term) : Block → Option String
  | .paragraph p => some p
  | .table t => if t.any (fun c => term.deepMatches c) then none
                else some (String.join t)

/-- The shared-table slice of read_body_info, with its panic (slice
start beyond slice end) explicit: join with newlines of the cells
strictly between the match position and the last later cell matched by
another term, or from the match cell to the end when no other term
occurs at or after the match. -/
def sliceValueSpec (t : List String) (pos : Nat) (term : Term) : Option String :=
  match lastOtherPos t pos term with
  | some nextTermPos =>
      if pos + 1 ≤ nextTermPos then
        some (String.intercalate "\n" ((t.drop (pos + 1)).take (nextTermPos - (pos + 1))))
      else
        none
  | none => some (String.intercalate "\n" (t.drop pos))

/-- Modelled from the claim wording for comparison: the position of the
NEXT different term at or after the match (the first hit of the scan,
where the source keeps the last hit). -/
def claimNextOtherPos (t : List String) (pos : Nat) (term : Term) : Option Nat :=
  (((t.enum).drop pos).filter (fun p => cellMatchesOther term p.2)).head?.map (·.1)

/-- Modelled from the claim wording for comparison: slice the table at
the next different term, joining the cells strictly between the match
and that next position. -/
def claimNextTermSlice (t : List String) (pos : Nat) (term : Term) : String :=
  match claimNextOtherPos t pos term with
  | some nextTermPos =>
      String.intercalate "\n" ((t.drop (pos + 1)).take (nextTermPos - (pos + 1)))
  | none => String.intercalate "\n" (t.drop pos)

/-- The table shape the header claim assumes: if the word occurs, its
first occurrence has a following cell and that cell is a value cell
(not itself a header label). -/
def labelFollowedByValue (t2 : List String) (w : String) : Bool :=
  match position (fun x => x == w) t2 with
  | some q =>
      decide (q + 1 < t2.length)
        && headerWords.all (fun w2 => !(t2[q + 1]? == some w2))
  | none => true

/-! ## Concrete inputs for the claims -/

/-- Scenario A of the spec: the four labels each followed by a value. -/
def scenarioABlocks : List Block :=
  [.table ["PROVINCE", "Western Cape", "DISTRICT", "West Coast",
           "SCHOOL", "Test High", "SUBJECT", "Physics"]]

/-- Scenario E of the spec: a document with no table at all. -/
def c2NoTableBlocks : List Block := [.paragraph "no tables here"]

/-- A second document for the batch-continuation part of C2. -/
def c2OtherDoc : List Block := [.paragraph "another document"]

/-- Scenario B of the spec: one CONCLUSION paragraph before a table. -/
def scenarioBBlocks : List Block :=
  [.paragraph "CONCLUSION", .table ["All good"]]

/-- Scenario B completed with an exact paragraph for every search term,
so that the lookup of no term hits the unreachable panic. -/
def c3WitnessBlocks : List Block :=
  [.paragraph "IDENTIFICATION OF IRREGULARITIES",
   .paragraph "AREAS OF GOOD PRACTICE / INNOVATION",
   .paragraph "AREAS THAT REQUIRE INTERVENTION AND SUPPORT",
   .paragraph "RECOMMENDATIONS",
   .paragraph "CONCLUSION",
   .table ["All good"]]

/-- A two-cell table after the CONCLUSION paragraph, exposing the
separator of the join. -/
def c3SepBlocks : List Block :=
  [.paragraph "IDENTIFICATION OF IRREGULARITIES",
   .paragraph "AREAS OF GOOD PRACTICE / INNOVATION",
   .paragraph "AREAS THAT REQUIRE INTERVENTION AND SUPPORT",
   .paragraph "RECOMMENDATIONS",
   .paragraph "CONCLUSION",
   .table ["a", "b"]]

/-- A shared table holding two other search terms after the match of
the third one. -/
def c4CounterTable : List String :=
  ["AREAS THAT REQUIRE INTERVENTION AND SUPPORT", "x",
   "RECOMMENDATIONS", "y", "CONCLUSION", "z"]

/-- Block sequence around c4CounterTable with an exact paragraph for
every search term. -/
def c4CounterBlocks : List Block :=
  [.paragraph "IDENTIFICATION OF IRREGULARITIES",
   .paragraph "AREAS OF GOOD PRACTICE / INNOVATION",
   .paragraph "AREAS THAT REQUIRE INTERVENTION AND SUPPORT",
   .table c4CounterTable,
   .paragraph "RECOMMENDATIONS",
   .paragraph "CONCLUSION",
   .paragraph "end"]

/-- The map read_body_info returns on c4CounterBlocks. -/
def c4CounterMap : List (String × String) :=
  [("IDENTIFICATION OF IRREGULARITIES", "AREAS OF GOOD PRACTICE / INNOVATION"),
   ("AREAS OF GOOD PRACTICE / INNOVATION", "AREAS THAT REQUIRE INTERVENTION AND SUPPORT"),
   ("AREAS THAT REQUIRE INTERVENTION AND SUPPORT", "x\nRECOMMENDATIONS\ny"),
   ("RECOMMENDATIONS", "CONCLUSION"),
   ("CONCLUSION", "end")]

/-- The Scenario D table: one other term after filler rows. -/
def c4WitnessTable : List String :=
  ["AREAS THAT REQUIRE INTERVENTION AND SUPPORT", "x",
   "filler", "y", "RECOMMENDATIONS", "z"]

/-- Block sequence around c4WitnessTable with an exact paragraph for
every search term. -/
def c4WitnessBlocks : List Block :=
  [.paragraph "IDENTIFICATION OF IRREGULARITIES",
   .paragraph "AREAS OF GOOD PRACTICE / INNOVATION",
   .paragraph "AREAS THAT REQUIRE INTERVENTION AND SUPPORT",
   .table c4WitnessTable,
   .paragraph "RECOMMENDATIONS",
   .paragraph "CONCLUSION",
   .paragraph "tail"]

/-- A document in which no search term has a match of any kind. -/
def c5FailingBlocks : List Block := [.paragraph "hello"]

/-- A header table whose final cell is the label SUBJECT but whose
value slot for SCHOOL is that same cell: the mem take blanks it before
SUBJECT is looked up, so the expect does not fire. -/
def c10NoPanicBlocks : List Block := [.table ["SCHOOL", "SUBJECT"]]

/-- A header table where SUBJECT is first found at the final cell. -/
def c10PanicBlocks : List Block := [.table ["PROVINCE", "x", "SUBJECT"]]

/-- A header table whose final cell is not a header label. -/
def c10SafeBlocks : List Block := [.table ["PROVINCE", "Western Province"]]

/-- A row stream with province and district present but no school: the
builder never completes and the row read runs off the end of the input. -/
def c8FailInput : List Tok :=
  [.tr, .tc "Province", .tc "WC", .tr, .tc "District", .tc "WCD"]

/-- Fifteen rows without any header label. -/
def c8JunkRows : List Tok :=
  (List.replicate 15 [Tok.tr, Tok.tc "x", Tok.tc "y"]).flatten

/-- A stream carrying all four header labels with values. -/
def c8GoodInput : List Tok :=
  [.tr, .tc "Province", .tc "WC", .tr, .tc "District", .tc "D1",
   .tr, .tc "School", .tc "S1", .tr, .tc "Subject", .tc "Phys"]

/-- An inner table with one non-blank and one blank paragraph. -/
def c9Inner : DocxTable :=
  .mk [.mk [.mk [.paragraph "inner text", .paragraph "  "]]]

/-- An outer table holding c9Inner inside its first cell. -/
def c9Outer : DocxTable :=
  .mk [.mk [.mk [.paragraph "outer", .table c9Inner]],
       .mk [.mk [.paragraph "after"]]]

/-! ## Lemmas about position -/

theorem position_cons {α : Type} (p : α → Bool) (a : α) (l : List α) :
    position p (a :: l) = if p a then some 0 else (position p l).map (· + 1) :=
  rfl

theorem position_eq_some {α : Type} {p : α → Bool} :
    ∀ {l : List α} {n : Nat}, position p l = some n →
      ∃ a, l[n]? = some a ∧ p a = true := by
  intro l
  induction l with
  | nil => intro n h; simp [position] at h
  | cons a l ih =>
    intro n h
    rw [position_cons] at h
    by_cases hpa : p a
    · rw [if_pos hpa] at h
      injection h with h
      subst h
      exact ⟨a, by simp, hpa⟩
    · rw [if_neg hpa] at h
      cases hpl : position p l with
      | none => rw [hpl] at h; cases h
      | some m =>
        rw [hpl] at h
        simp only [Option.map_some'] at h
        injection h with h
        subst h
        obtain ⟨b, hb, hpb⟩ := ih hpl
        exact ⟨b, by simpa using hb, hpb⟩

theorem position_lt_length {α : Type} {p : α → Bool} {l : List α} {n : Nat}
    (h : position p l = some n) : n < l.length := by
  obtain ⟨a, ha, _⟩ := position_eq_some h
  by_contra hn
  rw [List.getElem?_eq_none (Nat.le_of_not_lt hn)] at ha
  cases ha

theorem position_eq_none {α : Type} {p : α → Bool} :
    ∀ {l : List α}, position p l = none ↔ ∀ a ∈ l, p a = false := by
  intro l
  induction l with
  | nil => simp [position]
  | cons a l ih =>
    constructor
    · intro h b hb
      rw [position_cons] at h
      by_cases hpa : p a
      · rw [if_pos hpa] at h; cases h
      · rw [if_neg hpa] at h
        rcases List.mem_cons.mp hb with rfl | hb
        · exact Bool.eq_false_iff.mpr hpa
        · cases hpl : position p l with
          | none => exact (ih.mp hpl) b hb
          | some m => rw [hpl] at h; cases h
    · intro h
      rw [position_cons, if_neg (by simp [h a (List.mem_cons_self a l)]),
        ih.mpr (fun b hb => h b (List.mem_cons_of_mem a hb))]
      rfl

theorem position_set {α : Type} {p : α → Bool} :
    ∀ {l : List α} {i : Nat} {a : α},
      (∀ x, l[i]? = some x → p x = false) → p a = false →
      position p (l.set i a) = position p l := by
  intro l
  induction l with
  | nil => intro i a _ _; simp
  | cons b l ih =>
    intro i a hold hnew
    cases i with
    | zero =>
      have hpb : p b = false := hold b (by simp)
      rw [List.set_cons_zero, position_cons, position_cons,
        if_neg (by simp [hnew]), if_neg (by simp [hpb])]
    | succ j =>
      rw [List.set_cons_succ, position_cons, position_cons]
      by_cases hpb : p b
      · rw [if_pos hpb, if_pos hpb]
      · rw [if_neg hpb, if_neg hpb,
          ih (fun x hx => hold x (by simpa using hx)) hnew]

/-! ## String normalization lemmas (claim C6) -/

theorem wsChar_toLower {c : Char} (h : wsChar c = true) : c.toLower = c := by
  have hd : ((c = ' ' ∨ c = '\t') ∨ c = '\r') ∨ c = '\n' := by
    simpa [wsChar, Char.isWhitespace, Bool.or_eq_true, decide_eq_true_eq] using h
  rcases hd with ((rfl | rfl) | rfl) | rfl <;> decide

theorem noWs_lower_dropWhile (l : List Char) :
    noWsChars (lowerChars (l.dropWhile wsChar)) = noWsChars (lowerChars l) := by
  induction l with
  | nil => rfl
  | cons c l ih =>
    by_cases hc : wsChar c
    · rw [List.dropWhile_cons, if_pos hc, ih]
      have hlc : wsChar c.toLower = true := by rw [wsChar_toLower hc]; exact hc
      simp [lowerChars, noWsChars, hlc]
    · rw [List.dropWhile_cons, if_neg hc]

theorem noWs_lower_reverse (l : List Char) :
    noWsChars (lowerChars l.reverse) = (noWsChars (lowerChars l)).reverse := by
  simp [lowerChars, noWsChars, List.map_reverse, List.filter_reverse]

theorem noWs_lower_trim (l : List Char) :
    noWsChars (lowerChars (trimChars l)) = noWsChars (lowerChars l) := by
  unfold trimChars
  rw [noWs_lower_reverse, noWs_lower_dropWhile, noWs_lower_reverse,
    List.reverse_reverse, noWs_lower_dropWhile]

theorem noColon_noWs_comm (l : List Char) :
    noColonChars (noWsChars l) = noWsChars (noColonChars l) := by
  unfold noColonChars noWsChars
  rw [List.filter_filter, List.filter_filter]
  exact List.filter_congr fun x _ => Bool.and_comm _ _

theorem noWs_idem (l : List Char) : noWsChars (noWsChars l) = noWsChars l := by
  unfold noWsChars
  rw [List.filter_filter]
  exact List.filter_congr fun x _ => Bool.and_self _

theorem noColon_idem (l : List Char) :
    noColonChars (noColonChars l) = noColonChars l := by
  unfold noColonChars
  rw [List.filter_filter]
  exact List.filter_congr fun x _ => Bool.and_self _

theorem deepSearchTerm_sound {s t : String} (h : deepSearchTerm s t = true) :
    specNormalize s = specNormalize t := by
  unfold deepSearchTerm at h
  simp only [Bool.or_eq_true, beq_iff_eq] at h
  unfold specNormalize
  rw [← noWs_lower_trim s.toList]
  rcases h with (h | h) | h
  · rw [h]
  · have h2 : noWsChars (lowerChars t.toList) = lowerChars t.toList := by
      rw [← h, noWs_idem]
    rw [h, h2]
  · calc noColonChars (noWsChars (lowerChars (trimChars s.toList)))
        = noWsChars (noColonChars (lowerChars (trimChars s.toList))) :=
          noColon_noWs_comm _
      _ = noWsChars (lowerChars t.toList) := by rw [h]
      _ = noWsChars (noColonChars (noColonChars (lowerChars (trimChars s.toList)))) := by
          rw [noColon_idem, h]
      _ = noColonChars (noWsChars (noColonChars (lowerChars (trimChars s.toList)))) := by
          rw [noColon_noWs_comm]
      _ = noColonChars (noWsChars (lowerChars t.toList)) := by rw [h]

/-- Claim C6 (amended): whenever deep matching accepts a text for a
term, the lowercased, whitespace-collapsed, colon-stripped form of the
text equals that of some alias of the term; the accepted texts are
exactly those whose single-kind drift (case, whitespace, or colons)
reduces to an alias, so the converse fails for combined drift. -/
theorem deep_matches_normalized_sound (term : Term) (s : String)
    (h : term.deepMatches s = true) :
    ∃ a ∈ term.aliases, specNormalize s = specNormalize a := by
  cases term with
  | single x =>
    exact ⟨x, by simp [Term.aliases], deepSearchTerm_sound h⟩
  | double m a =>
    simp only [Term.deepMatches, Bool.or_eq_true] at h
    rcases h with h | h
    · exact ⟨m, by simp [Term.aliases], deepSearchTerm_sound h⟩
    · exact ⟨a, by simp [Term.aliases], deepSearchTerm_sound h⟩
  | many m o =>
    simp only [Term.deepMatches, Bool.or_eq_true, List.any_eq_true] at h
    rcases h with h | ⟨x, hx, h⟩
    · exact ⟨m, by simp [Term.aliases], deepSearchTerm_sound h⟩
    · exact ⟨x, by simp [Term.aliases, hx], deepSearchTerm_sound h⟩

/-- Claim C6 counterexample: the text Conc lusion: normalizes to the
same form as the alias CONCLUSION (so the claimed iff demands a match),
yet deep matching rejects it, because whitespace drift and colon drift
occur together and deep_search_term only removes one kind at a time. -/
theorem deep_matches_not_normalized_complete :
    Term.deepMatches (Term.single "CONCLUSION") "Conc lusion:" = false ∧
    specNormalize "Conc lusion:" = specNormalize "CONCLUSION" := by
  exact ⟨by decide, by decide⟩

/-- Claim C6 witness: deep matching accepts conclusion: for the term
CONCLUSION (single colon drift), and the soundness theorem then yields
an alias with the same normalized form. -/
theorem deep_matches_normalized_sound_witness :
    ∃ a ∈ (Term.single "CONCLUSION").aliases,
      specNormalize "conclusion:" = specNormalize a :=
  deep_matches_normalized_sound (Term.single "CONCLUSION") "conclusion:" (by decide)

/-! ## Claim C5: a term without any match panics read_body_info -/

/-- Claim C5 (code bug): on a document in which no search term has an
exact or case-insensitive paragraph match, every lookup reaches the
unreachable arm and read_body_info panics instead of recording empty
strings. -/
theorem read_body_info_panics_on_absent_terms :
    extractSearchTermsInOrder.all
      (fun term => findTermTableText c5FailingBlocks term == Lookup.panicked) = true ∧
    readBodyInfo c5FailingBlocks = BodyResult.panicked := by
  exact ⟨by decide, by decide⟩

/-! ## Claim C7: output row order against the header row -/

/-- Claim C7 (code bug): into_record emits header.into_values() in the
HashMap's unspecified iteration order; two admissible orders of the
same four header values produce different rows, and under one of them
the first column carries the Subject value even though the header row
starts with Province, so the produced columns do not always align with
header_record. -/
theorem into_record_order_unspecified :
    headerRecord.take 4 = ["Province", "District", "School", "Subject"] ∧
    (["Physics", "West Coast", "Test High", "Western Cape"] : List String).Perm
      ["Western Cape", "West Coast", "Test High", "Physics"] ∧
    intoRecord ["Physics", "West Coast", "Test High", "Western Cape"] [] "f.docx" ≠
      intoRecord ["Western Cape", "West Coast", "Test High", "Physics"] [] "f.docx" ∧
    (intoRecord ["Physics", "West Coast", "Test High", "Western Cape"] [] "f.docx").head? =
      some "Physics" := by
  exact ⟨by decide, by decide, by decide, by decide⟩

/-! ## Claim C8: the positional header scan -/

theorem getTr_lt {s r : List Tok} (h : getTr s = some r) :
    r.length < s.length := by
  induction s with
  | nil => cases h
  | cons tok rest ih =>
    cases tok with
    | tr =>
      injection h with h
      subst h
      simp
    | tc t =>
      have := ih (by simpa [getTr] using h)
      calc r.length < rest.length := this
        _ < (Tok.tc t :: rest).length := by simp

theorem getTc_lt {s r : List Tok} {t : String} (h : getTc s = some (t, r)) :
    r.length < s.length := by
  induction s with
  | nil => cases h
  | cons tok rest ih =>
    cases tok with
    | tc x =>
      injection h with h
      rw [Prod.mk.injEq] at h
      rw [← h.2]
      simp
    | tr =>
      have := ih (by simpa [getTc] using h)
      calc r.length < rest.length := this
        _ < (Tok.tr :: rest).length := by simp

theorem readValueInto_lt {s r : List Tok} {f : String → HB} {hb2 : HB}
    (h : readValueInto s f = some (hb2, r)) : r.length < s.length := by
  unfold readValueInto at h
  cases hg : getTc s with
  | none => rw [hg] at h; cases h
  | some p =>
    rw [hg] at h
    injection h with h
    rw [Prod.mk.injEq] at h
    rw [← h.2]
    exact getTc_lt (t := p.1) (by rw [hg])

theorem handleColval_le {cv : String} {s r : List Tok} {hb hb2 : HB}
    (h : handleColval cv s hb = some (hb2, r)) : r.length ≤ s.length := by
  unfold handleColval at h
  split_ifs at h
  any_goals exact Nat.le_of_lt (readValueInto_lt h)
  injection h with h
  rw [Prod.mk.injEq] at h
  rw [h.2]

theorem hiStep_next_lt {stream s5 : List Tok} {hb hb2 : HB}
    (h : hiStep stream hb = .next hb2 s5) : s5.length < stream.length := by
  unfold hiStep at h
  cases h1 : getTr stream with
  | none => simp only [h1] at h; cases h
  | some s1 =>
    simp only [h1] at h
    cases h2 : getTc s1 with
    | none => simp only [h2] at h; cases h
    | some ts2 =>
      obtain ⟨t, s2⟩ := ts2
      simp only [h2] at h
      cases h3 : handleColval t s2 hb with
      | none => simp only [h3] at h; cases h
      | some hs3 =>
        obtain ⟨hb1, s3⟩ := hs3
        simp only [h3] at h
        cases h4 : getTc s3 with
        | none => simp only [h4] at h; cases h
        | some cs4 =>
          obtain ⟨cv, s4⟩ := cs4
          simp only [h4] at h
          cases h5 : handleColval cv s4 hb1 with
          | none => simp only [h5] at h; cases h
          | some hs5 =>
            obtain ⟨hb2x, s5x⟩ := hs5
            simp only [h5] at h
            injection h with hx hy
            subst hx
            have l1 : s1.length < stream.length := getTr_lt h1
            have l2 : s2.length < s1.length := getTc_lt h2
            have l3 : s3.length ≤ s2.length := handleColval_le h3
            have l4 : s4.length < s3.length := getTc_lt h4
            have l5 : s5x.length ≤ s4.length := handleColval_le h5
            subst hy
            omega

/-- Fuel sufficiency of the loop embedding: every iteration consumes at
least one token of the stream, so fuel exceeding the stream length is
never exhausted and the fuelOut outcome of hiLoop is unreachable from
readHeaderInfo. -/
theorem hiLoop_ne_fuelOut :
    ∀ (fuel : Nat) (stream : List Tok) (counter : Nat) (hb : HB),
      stream.length < fuel → hiLoop fuel stream counter hb ≠ .fuelOut := by
  intro fuel
  induction fuel with
  | zero => intro stream counter hb h; cases h
  | succ fuel ih =>
    intro stream counter hb hlen
    unfold hiLoop
    cases hs : hiStep stream hb with
    | panicked => simp
    | error => simp
    | next hb2 s5 =>
      have hlt : s5.length < fuel := by
        have := hiStep_next_lt hs
        omega
      simp only []
      split
      · simp
      · split
        · simp
        · exact ih _ _ _ hlt

/-- Claim C8 (code bug): the scan does bail with a document-scoped
error when the protection counter passes its bound with province or
district missing (fifteen label-free rows), and completes on a full
header, but a stream whose rows end before the builder is complete —
province and district present, school never seen — makes the unwrap on
the row read panic, a process-wide failure instead of the
malformed-document error the claim promises for every input. -/
theorem read_header_info_outcomes :
    readHeaderInfo c8FailInput = HIResult.panicked ∧
    readHeaderInfo c8JunkRows = HIResult.error ∧
    readHeaderInfo c8GoodInput = HIResult.ok "WC" "D1" (some "S1") (some "Phys") := by
  exact ⟨by decide, by decide, by decide⟩

/-! ## Claim C2: the header-not-found error and batch continuation -/

theorem mem_docTables (blocks : List Block) (t : List String) :
    t ∈ docTables blocks ↔ Block.table t ∈ blocks := by
  unfold docTables
  rw [List.mem_filterMap]
  constructor
  · rintro ⟨b, hb, hfb⟩
    cases b with
    | paragraph p => cases hfb
    | table t0 =>
      injection hfb with hx
      subst hx
      exact hb
  · intro h
    exact ⟨.table t, h, rfl⟩

theorem readHead_not_found_iff_no_table (blocks : List Block) :
    readHead blocks = HeadResult.headerNotFound ↔
      findTableContainingOneOf blocks = none := by
  unfold readHead
  cases hf : findTableContainingOneOf blocks with
  | none => simp
  | some t =>
    cases hl : readHeadLoop headerWords (normalizeHeaderCells t) [] with
    | none => simp [hl]
    | some m => simp [hl]

/-- Claim C2: read_head fails exactly when no table of the block
sequence contains a cell matching a header term by exact or normalized
match, and the batch driver skips such a document and continues with
the rest unchanged. -/
theorem locate_header_errors_iff_no_header_term (blocks : List Block) :
    (readHead blocks = HeadResult.headerNotFound ↔
      ∀ t, Block.table t ∈ blocks → ∀ c ∈ t,
        cellHeaderExact c = false ∧ cellHeaderNorm c = false) ∧
    (∀ pre post, readHead blocks = HeadResult.headerNotFound →
      processAll (pre ++ blocks :: post) = processAll (pre ++ post)) := by
  constructor
  · rw [readHead_not_found_iff_no_table]
    unfold findTableContainingOneOf
    constructor
    · intro h t hmem c hc
      have ht : t ∈ docTables blocks := (mem_docTables blocks t).mpr hmem
      cases hfe : (docTables blocks).find? (fun t => t.any cellHeaderExact) with
      | some u => simp only [hfe] at h; exact Option.noConfusion h
      | none =>
        simp only [hfe] at h
        have he := List.find?_eq_none.mp hfe t ht
        have hn := List.find?_eq_none.mp h t ht
        constructor
        · cases hx : cellHeaderExact c
          · rfl
          · exact absurd (List.any_eq_true.mpr ⟨c, hc, hx⟩) he
        · cases hx : cellHeaderNorm c
          · rfl
          · exact absurd (List.any_eq_true.mpr ⟨c, hc, hx⟩) hn
    · intro hall
      have he : (docTables blocks).find? (fun t => t.any cellHeaderExact) = none := by
        apply List.find?_eq_none.mpr
        intro t ht hany
        obtain ⟨c, hc, hcc⟩ := List.any_eq_true.mp hany
        rw [(hall t ((mem_docTables blocks t).mp ht) c hc).1] at hcc
        cases hcc
      have hn : (docTables blocks).find? (fun t => t.any cellHeaderNorm) = none := by
        apply List.find?_eq_none.mpr
        intro t ht hany
        obtain ⟨c, hc, hcc⟩ := List.any_eq_true.mp hany
        rw [(hall t ((mem_docTables blocks t).mp ht) c hc).2] at hcc
        cases hcc
      simp only [he, hn]
  · intro pre post h
    induction pre with
    | nil =>
      have hext : extractOne blocks = DocOutcome.err := by
        unfold extractOne
        rw [h]
      simp only [List.nil_append, processAll, hext]
    | cons d pre ih =>
      cases hd : extractOne d with
      | panicked => simp only [List.cons_append, processAll, hd]
      | err => simpa only [List.cons_append, processAll, hd] using ih
      | ok hh bb =>
        simp only [List.cons_append, processAll, hd]
        exact congrArg _ ih

/-- Claim C2 witness: Scenario E, a document whose single block is a
paragraph, triggers the header-not-found error and is skipped while
the following document is still processed. -/
theorem locate_header_errors_witness :
    readHead c2NoTableBlocks = HeadResult.headerNotFound ∧
    processAll (c2NoTableBlocks :: [c2OtherDoc]) = processAll [c2OtherDoc] := by
  have h := locate_header_errors_iff_no_header_term c2NoTableBlocks
  have hnf : readHead c2NoTableBlocks = HeadResult.headerNotFound := by
    apply h.1.mpr
    intro t hmem c hc
    simp [c2NoTableBlocks] at hmem
  exact ⟨hnf, h.2 [] [c2OtherDoc] hnf⟩

/-! ## Claim C1: positional header extraction -/

theorem readHeadLoop_spec (tOrig : List String) :
    ∀ (words : List String), words.Nodup →
      (∀ w ∈ words, ¬(w = "")) →
      ∀ (tc : List String) (acc : List (String × String)),
        tc.length = tOrig.length →
        (∀ w ∈ words, position (fun x => x == w) tc = position (fun x => x == w) tOrig) →
        (∀ w ∈ words, ∀ q, position (fun x => x == w) tOrig = some q →
          q + 1 < tOrig.length ∧ tc[q + 1]? = tOrig[q + 1]? ∧
          ∀ w2 ∈ words, tOrig[q + 1]? ≠ some w2) →
        readHeadLoop words tc acc =
          some (acc ++ words.map (fun w =>
            (w, match position (fun x => x == w) tOrig with
                | some q => tOrig.getD (q + 1) ""
                | none => ""))) := by
  intro words
  induction words with
  | nil => intro _ _ tc acc _ _ _; simp [readHeadLoop]
  | cons w ws ih =>
    intro hnd hne tc acc hlen hsame hval
    have hndc := List.nodup_cons.mp hnd
    have hnes : ∀ x ∈ ws, ¬(x = "") :=
      fun x hx => hne x (List.mem_cons_of_mem w hx)
    simp only [readHeadLoop]
    cases hpos : position (fun x => x == w) tc with
    | none =>
      have hposO : position (fun x => x == w) tOrig = none := by
        rw [← hsame w (List.mem_cons_self w ws)]
        exact hpos
      rw [ih hndc.2 hnes tc (acc ++ [(w, "")]) hlen
        (fun x hx => hsame x (List.mem_cons_of_mem w hx))
        (fun x hx q hq =>
          ⟨(hval x (List.mem_cons_of_mem w hx) q hq).1,
           (hval x (List.mem_cons_of_mem w hx) q hq).2.1,
           fun w2 hw2 => (hval x (List.mem_cons_of_mem w hx) q hq).2.2 w2
             (List.mem_cons_of_mem w hw2)⟩)]
      simp [hposO]
    | some q =>
      have hposO : position (fun x => x == w) tOrig = some q := by
        rw [← hsame w (List.mem_cons_self w ws)]
        exact hpos
      obtain ⟨hqlt, htcq, hnotword⟩ := hval w (List.mem_cons_self w ws) q hposO
      obtain ⟨v, hvO⟩ : ∃ v, tOrig[q + 1]? = some v := by
        rw [List.getElem?_eq_getElem hqlt]
        exact ⟨_, rfl⟩
      have hvtc : tc[q + 1]? = some v := by rw [htcq, hvO]
      simp only [hvtc]
      have hsame2 : ∀ x ∈ ws,
          position (fun y => y == x) (tc.set (q + 1) "") =
            position (fun y => y == x) tOrig := by
        intro x hx
        rw [position_set, hsame x (List.mem_cons_of_mem w hx)]
        · intro y hy
          rw [htcq] at hy
          apply beq_eq_false_iff_ne.mpr
          intro he
          exact hnotword x (List.mem_cons_of_mem w hx) (he ▸ hy)
        · apply beq_eq_false_iff_ne.mpr
          intro he
          exact hne x (List.mem_cons_of_mem w hx) he.symm
      have hval2 : ∀ x ∈ ws, ∀ q2, position (fun y => y == x) tOrig = some q2 →
          q2 + 1 < tOrig.length ∧ (tc.set (q + 1) "")[q2 + 1]? = tOrig[q2 + 1]? ∧
          ∀ w2 ∈ ws, tOrig[q2 + 1]? ≠ some w2 := by
        intro x hx q2 hq2
        obtain ⟨h1, h2, h3⟩ := hval x (List.mem_cons_of_mem w hx) q2 hq2
        refine ⟨h1, ?_, fun w2 hw2 => h3 w2 (List.mem_cons_of_mem w hw2)⟩
        have hq2q : q2 ≠ q := by
          intro he
          obtain ⟨a, ha, hpa⟩ := position_eq_some hposO
          obtain ⟨b, hb, hpb⟩ := position_eq_some hq2
          rw [he, ha] at hb
          injection hb with hb
          have haw : a = w := beq_iff_eq.mp hpa
          have hbx : b = x := beq_iff_eq.mp hpb
          exact hndc.1 (haw ▸ hb ▸ hbx ▸ hx)
        have hne2 : q + 1 ≠ q2 + 1 := by omega
        rw [List.getElem?_set_ne hne2, h2]
      rw [ih hndc.2 hnes (tc.set (q + 1) "") (acc ++ [(w, v)])
        (by rw [List.length_set]; exact hlen) hsame2 hval2]
      have hvd : tOrig.getD (q + 1) "" = v := by
        rw [List.getD_eq_getElem?_getD, hvO]
        rfl
      simp [hposO, hvd, hvO]

/-- Claim C1: on a block sequence whose first header table (after
normalization) has every found label followed by a value cell,
read_head returns exactly the four labels, each found label paired
with the cell after its first occurrence and each absent label paired
with the empty string. -/
theorem read_head_positional (blocks : List Block) (t : List String)
    (hfind : findTableContainingOneOf blocks = some t)
    (hval : ∀ w ∈ headerWords, labelFollowedByValue (normalizeHeaderCells t) w = true) :
    readHead blocks = HeadResult.ok (headerWords.map (fun w =>
      (w, match position (fun x => x == w) (normalizeHeaderCells t) with
          | some q => (normalizeHeaderCells t).getD (q + 1) ""
          | none => ""))) := by
  unfold readHead
  simp only [hfind]
  have hval2 : ∀ w ∈ headerWords, ∀ q,
      position (fun x => x == w) (normalizeHeaderCells t) = some q →
      q + 1 < (normalizeHeaderCells t).length ∧
      (normalizeHeaderCells t)[q + 1]? = (normalizeHeaderCells t)[q + 1]? ∧
      ∀ w2 ∈ headerWords, (normalizeHeaderCells t)[q + 1]? ≠ some w2 := by
    intro w hw q hq
    have hb := hval w hw
    unfold labelFollowedByValue at hb
    rw [hq] at hb
    rw [Bool.and_eq_true, decide_eq_true_eq, List.all_eq_true] at hb
    refine ⟨hb.1, rfl, fun w2 hw2 => ?_⟩
    have := hb.2 w2 hw2
    rw [Bool.not_eq_eq_eq_not, Bool.not_true, beq_eq_false_iff_ne] at this
    exact this
  rw [readHeadLoop_spec (normalizeHeaderCells t) headerWords (by decide) (by decide)
    (normalizeHeaderCells t) [] rfl (fun _ _ => rfl) hval2]
  simp

/-- Claim C1 witness: Scenario A. -/
theorem read_head_positional_witness :
    readHead scenarioABlocks = HeadResult.ok
      [("PROVINCE", "Western Cape"), ("DISTRICT", "West Coast"),
       ("SCHOOL", "Test High"), ("SUBJECT", "Physics")] := by
  have h := read_head_positional scenarioABlocks
    ["PROVINCE", "Western Cape", "DISTRICT", "West Coast", "SCHOOL", "Test High",
     "SUBJECT", "Physics"] (by decide) (by decide)
  exact h.trans (by decide)

/-! ## Claims C3 and C4: section values -/

theorem readBodyGo_eq (blocks : List Block) :
    ∀ terms : List Term, (∀ tm ∈ terms, (termValue blocks tm).isSome = true) →
      readBodyGo blocks terms =
        some (terms.map fun tm => (tm.intoMain, (termValue blocks tm).getD "")) := by
  intro terms
  induction terms with
  | nil => intro _; rfl
  | cons tm rest ih =>
    intro hall
    obtain ⟨v, hv⟩ := Option.isSome_iff_exists.mp (hall tm (List.mem_cons_self tm rest))
    unfold readBodyGo
    rw [hv, ih (fun x hx => hall x (List.mem_cons_of_mem tm hx))]
    simp [hv]

theorem map_lookup_intoMain (f : Term → String) :
    ∀ (terms : List Term), (terms.map Term.intoMain).Nodup →
      ∀ tm ∈ terms,
        (terms.map fun x => (x.intoMain, f x)).lookup tm.intoMain = some (f tm) := by
  intro terms
  induction terms with
  | nil => intro _ tm htm; cases htm
  | cons hd tl ih =>
    intro hnd tm htm
    rw [List.map_cons] at hnd
    have hnd2 := List.nodup_cons.mp hnd
    rcases List.mem_cons.mp htm with rfl | htl
    · simp [List.lookup]
    · have hne : (tm.intoMain == hd.intoMain) = false := by
        apply beq_eq_false_iff_ne.mpr
        intro he
        exact hnd2.1 (he ▸ List.mem_map_of_mem Term.intoMain htl)
      simp only [List.map_cons, List.lookup, hne]
      exact ih hnd2.2 tm htl

theorem bodyLookup_eq_termValue (blocks : List Block) (term : Term)
    (hterm : term ∈ extractSearchTermsInOrder)
    (hall : ∀ tm ∈ extractSearchTermsInOrder, (termValue blocks tm).isSome = true)
    (v : String) (htv : termValue blocks term = some v) :
    bodyLookup blocks term = some v := by
  unfold bodyLookup readBodyInfo
  rw [readBodyGo_eq blocks extractSearchTermsInOrder hall]
  have hlk := map_lookup_intoMain (fun tm => (termValue blocks tm).getD "")
    extractSearchTermsInOrder (by decide) term hterm
  simp only [] at hlk ⊢
  rw [hlk, htv]
  rfl

/-- Claim C3 (amended): when a term has an exact paragraph match, and
every search term resolves to some paragraph match (otherwise the whole
call panics, see the counterexample), the term's value is the content
of the block after the matching paragraph: a following paragraph
contributes its text, and a following table that the term does not
deep-match contributes its cell texts concatenated without separator. -/
theorem locate_sections_next_block (blocks : List Block) (term : Term)
    (hterm : term ∈ extractSearchTermsInOrder)
    (hall : ∀ tm ∈ extractSearchTermsInOrder, (termValue blocks tm).isSome = true)
    (i : Nat) (hi : position (paraExactMatch term) blocks = some i)
    (nb : Block) (hnb : blocks[i + 1]? = some nb)
    (v : String) (hv : nextBlockValueSpec term nb = some v) :
    bodyLookup blocks term = some v := by
  apply bodyLookup_eq_termValue blocks term hterm hall
  have hft : findTermTableText blocks term = Lookup.block nb := by
    unfold findTermTableText
    simp only [hi, hnb]
  cases nb with
  | paragraph p =>
    unfold termValue
    simp only [hft]
    simpa only [nextBlockValueSpec] using hv
  | table t =>
    simp only [nextBlockValueSpec] at hv
    by_cases hany : (t.any fun c => term.deepMatches c) = true
    · rw [if_pos hany] at hv
      cases hv
    · rw [if_neg hany] at hv
      have hpos : position (fun x => term.deepMatches x) t = none := by
        apply position_eq_none.mpr
        intro a ha
        cases hx : term.deepMatches a
        · rfl
        · exact absurd (List.any_eq_true.mpr ⟨a, ha, hx⟩) hany
      unfold termValue
      simp only [hft, hpos]
      exact hv

/-- Claim C3 witness: Scenario B completed with a paragraph for every
term; the CONCLUSION value is the single cell of the following table. -/
theorem locate_sections_next_block_witness :
    bodyLookup c3WitnessBlocks (Term.single "CONCLUSION") = some "All good" :=
  locate_sections_next_block c3WitnessBlocks (Term.single "CONCLUSION")
    (by decide) (by decide) 4 (by decide) (Block.table ["All good"]) (by decide)
    "All good" (by decide)

/-- Claim C3 counterexample: Scenario B as stated panics, because the
other four search terms have no paragraph match and their lookup hits
the unreachable arm; and with every term present, a two-cell table
after CONCLUSION yields the concatenation ab, not the newline join. -/
theorem scenario_b_panics :
    readBodyInfo scenarioBBlocks = BodyResult.panicked ∧
    paraExactMatch (Term.single "CONCLUSION") (Block.paragraph "CONCLUSION") = true ∧
    bodyLookup scenarioBBlocks (Term.single "CONCLUSION") = none ∧
    String.join ["a", "b"] = "ab" ∧
    bodyLookup c3SepBlocks (Term.single "CONCLUSION") = some "ab" := by
  refine ⟨by decide, by decide, by decide, by decide, by decide⟩

/-- Claim C4 (amended): when the term deep-matches a cell of the table
after its matching paragraph, the value is the newline join of the
cells strictly between the first deep-match position and the position
of the last (not the next) cell at or after it that another term
deep-matches; with no such cell the value runs from the match cell
itself (inclusive) to the end of the table. -/
theorem locate_sections_shared_table (blocks : List Block) (term : Term)
    (hterm : term ∈ extractSearchTermsInOrder)
    (hall : ∀ tm ∈ extractSearchTermsInOrder, (termValue blocks tm).isSome = true)
    (i : Nat) (hi : position (paraExactMatch term) blocks = some i)
    (t : List String) (hnb : blocks[i + 1]? = some (Block.table t))
    (pos : Nat) (hpos : position (fun x => term.deepMatches x) t = some pos)
    (v : String) (hv : sliceValueSpec t pos term = some v) :
    bodyLookup blocks term = some v := by
  apply bodyLookup_eq_termValue blocks term hterm hall
  have hft : findTermTableText blocks term = Lookup.block (Block.table t) := by
    unfold findTermTableText
    simp only [hi, hnb]
  unfold termValue
  simp only [hft, hpos]
  exact hv

/-- Claim C4 witness: the Scenario D table sliced for its first term,
with RECOMMENDATIONS the only other term present. -/
theorem locate_sections_shared_table_witness :
    bodyLookup c4WitnessBlocks
      (Term.single "AREAS THAT REQUIRE INTERVENTION AND SUPPORT") =
      some "x\nfiller\ny" :=
  locate_sections_shared_table c4WitnessBlocks
    (Term.single "AREAS THAT REQUIRE INTERVENTION AND SUPPORT")
    (by decide) (by decide) 2 (by decide) c4WitnessTable (by decide) 0 (by decide)
    "x\nfiller\ny" (by decide)

/-- Claim C4 counterexample: with two other terms in the shared table,
the scan keeps the last hit, so the value runs up to CONCLUSION and
swallows the RECOMMENDATIONS row, where the claim demands the slice to
stop at the next term and produce x. -/
theorem shared_table_slices_at_last_not_next :
    readBodyInfo c4CounterBlocks = BodyResult.ok c4CounterMap ∧
    c4CounterMap.lookup "AREAS THAT REQUIRE INTERVENTION AND SUPPORT" =
      some "x\nRECOMMENDATIONS\ny" ∧
    claimNextTermSlice c4CounterTable 0
      (Term.single "AREAS THAT REQUIRE INTERVENTION AND SUPPORT") = "x" ∧
    ("x\nRECOMMENDATIONS\ny" : String) ≠ "x" := by
  refine ⟨by decide, by decide, by decide, by decide⟩

/-! ## Claim C10: the expect panic of read_head -/

theorem readHeadLoop_ne_none :
    ∀ (words : List String), (∀ w ∈ words, ¬(w = "")) →
      ∀ (tc : List String) (acc : List (String × String)),
        (∀ w ∈ words, tc.getLast? ≠ some w) →
        readHeadLoop words tc acc ≠ none := by
  intro words
  induction words with
  | nil => intro _ tc acc _; simp [readHeadLoop]
  | cons w ws ih =>
    intro hne tc acc hlast
    have hnes : ∀ x ∈ ws, ¬(x = "") :=
      fun x hx => hne x (List.mem_cons_of_mem w hx)
    simp only [readHeadLoop]
    cases hpos : position (fun x => x == w) tc with
    | none =>
      exact ih hnes tc (acc ++ [(w, "")])
        (fun x hx => hlast x (List.mem_cons_of_mem w hx))
    | some q =>
      have hqlt : q < tc.length := position_lt_length hpos
      cases hq1 : tc[q + 1]? with
      | none =>
        exfalso
        obtain ⟨a, ha, hpa⟩ := position_eq_some hpos
        have haw : a = w := beq_iff_eq.mp hpa
        have hlenle : tc.length ≤ q + 1 := by
          by_contra hx
          rw [List.getElem?_eq_getElem (Nat.lt_of_not_le hx)] at hq1
          cases hq1
        have hq_eq : q = tc.length - 1 := by omega
        apply hlast w (List.mem_cons_self w ws)
        rw [List.getLast?_eq_getElem?, ← hq_eq, ha, haw]
      | some v =>
        simp only [hq1]
        apply ih hnes (tc.set (q + 1) "") (acc ++ [(w, v)])
        intro x hx
        have hlenset : (tc.set (q + 1) "").length = tc.length := List.length_set tc _ _
        rw [List.getLast?_eq_getElem?, hlenset, List.getElem?_set]
        by_cases he : q + 1 = tc.length - 1
        · have hq1lt : q + 1 < tc.length := by
            by_contra hxx
            rw [List.getElem?_eq_none (Nat.le_of_not_lt hxx)] at hq1
            cases hq1
          rw [if_pos he, if_pos hq1lt]
          intro hc
          injection hc with hc
          exact hne x (List.mem_cons_of_mem w hx) hc.symm
        · rw [if_neg he, ← List.getLast?_eq_getElem?]
          exact hlast x (List.mem_cons_of_mem w hx)

/-- Claim C10 (amended): read_head cannot panic when the final cell of
the normalized matched table is not a header label (the expect fires
only on a label looked up at the last position), and it does panic
when a label's first occurrence is the final cell that no earlier
label consumed, as on the table PROVINCE, x, SUBJECT; but a label
sitting in the final cell is not sufficient for a panic, since the
value take of an earlier label can blank it first. -/
theorem read_head_panic_characterization :
    (∀ (blocks : List Block) (t : List String),
      findTableContainingOneOf blocks = some t →
      headerWords.all (fun w => !((normalizeHeaderCells t).getLast? == some w)) = true →
      readHead blocks ≠ HeadResult.panicked) ∧
    readHead c10PanicBlocks = HeadResult.panicked := by
  constructor
  · intro blocks t hfind hlastw
    unfold readHead
    simp only [hfind]
    cases hl : readHeadLoop headerWords (normalizeHeaderCells t) [] with
    | none =>
      exfalso
      apply readHeadLoop_ne_none headerWords (by decide) (normalizeHeaderCells t) []
        ?_ hl
      intro w hw
      have := List.all_eq_true.mp hlastw w hw
      rw [Bool.not_eq_eq_eq_not, Bool.not_true, beq_eq_false_iff_ne] at this
      exact this
    | some m => simp [hl]
  · decide

/-- Claim C10 witness: a table whose final cell Western Province is not
a header label never reaches the expect. -/
theorem read_head_panic_characterization_witness :
    readHead c10SafeBlocks ≠ HeadResult.panicked :=
  read_head_panic_characterization.1 c10SafeBlocks ["PROVINCE", "Western Province"]
    (by decide) (by decide)

/-- Claim C10 counterexample: the table SCHOOL, SUBJECT has the header
label SUBJECT as its final cell with no cell following, yet read_head
does not panic: the take of SCHOOL's value blanks the SUBJECT cell
before SUBJECT is looked up, and SUBJECT is reported missing. -/
theorem header_label_last_cell_no_panic :
    findTableContainingOneOf c10NoPanicBlocks = some ["SCHOOL", "SUBJECT"] ∧
    normalizeHeaderCells ["SCHOOL", "SUBJECT"] = ["SCHOOL", "SUBJECT"] ∧
    "SUBJECT" ∈ headerWords ∧
    readHead c10NoPanicBlocks = HeadResult.ok
      [("PROVINCE", ""), ("DISTRICT", ""), ("SCHOOL", "SUBJECT"), ("SUBJECT", "")] := by
  refine ⟨by decide, by decide, by decide, by decide⟩

/-! ## Claim C9: nested tables flatten into the parent -/

theorem collectRows_subset {r : DocxRow} :
    ∀ {rs : List DocxRow}, r ∈ rs → ∀ s ∈ collectRow r, s ∈ collectRows rs := by
  intro rs
  induction rs with
  | nil => intro h; cases h
  | cons r0 rs ih =>
    intro hr s hs
    simp only [collectRows]
    rcases List.mem_cons.mp hr with rfl | hr2
    · exact List.mem_append_left _ hs
    · exact List.mem_append_right _ (ih hr2 s hs)

theorem collectCells_subset {c : DocxCell} :
    ∀ {cs : List DocxCell}, c ∈ cs → ∀ s ∈ collectCell c, s ∈ collectCells cs := by
  intro cs
  induction cs with
  | nil => intro h; cases h
  | cons c0 cs ih =>
    intro hc s hs
    simp only [collectCells]
    rcases List.mem_cons.mp hc with rfl | hc2
    · exact List.mem_append_left _ hs
    · exact List.mem_append_right _ (ih hc2 s hs)

theorem collectContents_subset {x : DocxCellContent} :
    ∀ {xs : List DocxCellContent}, x ∈ xs →
      ∀ s ∈ collectContent x, s ∈ collectContents xs := by
  intro xs
  induction xs with
  | nil => intro h; cases h
  | cons x0 xs ih =>
    intro hx s hs
    simp only [collectContents]
    rcases List.mem_cons.mp hx with rfl | hx2
    · exact List.mem_append_left _ hs
    · exact List.mem_append_right _ (ih hx2 s hs)

theorem directlyNested_subset {inner outer : DocxTable}
    (h : directlyNested inner outer) :
    ∀ s ∈ collectTable inner, s ∈ collectTable outer := by
  obtain ⟨r, hr, c, hc, hmem⟩ := h
  intro s hs
  have h1 : s ∈ collectContent (DocxCellContent.table inner) := by
    simpa only [collectContent] using hs
  have h2 : s ∈ collectContents c.children := collectContents_subset hmem s h1
  have h3 : s ∈ collectCell c := by
    cases c
    simpa only [collectCell, DocxCell.children] using h2
  have h4 : s ∈ collectCells r.cells := collectCells_subset hc s h3
  have h5 : s ∈ collectRow r := by
    cases r
    simpa only [collectRow, DocxRow.cells] using h4
  have h6 : s ∈ collectRows outer.rows := collectRows_subset hr s h5
  cases outer
  simpa only [collectTable, DocxTable.rows] using h6

/-- Claim C9: every paragraph text of a table nested (at any depth)
inside another table appears among the flattened paragraph texts of
the outer table, and, if its trimmed form is non-empty, among the
cells of the Table block the block builder produces for the outer
table; the produced Block carries no nested structure by construction. -/
theorem nested_tables_flatten (inner outer : DocxTable) (h : nestedIn inner outer) :
    ∀ s ∈ collectTable inner,
      s ∈ collectTable outer ∧
        ((trimChars s.toList).isEmpty = false → s ∈ tableText outer) := by
  have hsub : ∀ s ∈ collectTable inner, s ∈ collectTable outer := by
    induction h with
    | single hd => exact directlyNested_subset hd
    | tail _ htl ih =>
      intro s hs
      exact directlyNested_subset htl s (ih s hs)
  intro s hs
  refine ⟨hsub s hs, fun hnb => ?_⟩
  unfold tableText
  rw [List.mem_filter]
  exact ⟨hsub s hs, by rw [hnb]; rfl⟩

/-- Claim C9 witness: the non-blank paragraph of the nested table keeps
its place in the outer block's cell list, the blank one is dropped. -/
theorem nested_tables_flatten_witness :
    "inner text" ∈ collectTable c9Outer ∧ "inner text" ∈ tableText c9Outer := by
  have hd : directlyNested c9Inner c9Outer := by
    refine ⟨DocxRow.mk [DocxCell.mk [.paragraph "outer", .table c9Inner]],
      List.mem_cons_self _ _,
      DocxCell.mk [.paragraph "outer", .table c9Inner],
      List.mem_cons_self _ _,
      List.mem_cons_of_mem _ (List.mem_cons_self _ _)⟩
  have h := nested_tables_flatten c9Inner c9Outer (Relation.TransGen.single hd)
    "inner text" (by decide)
  exact ⟨h.1, h.2 (by decide)⟩

end DocxExtract
